import Mathlib

/-!
Verification of the hash-orbit consistent-hashing ring.

The ring state of `class HashOrbit` is a JavaScript `Map<number, string>` from
hash positions to owning node identifiers, a sorted array of positions, and a
fixed replica count.  The entry list below models the `Map` including its
insertion-order iteration semantics (`set` on an existing key updates the entry
in place, a fresh key is appended; `delete` removes the entry).

The hash function `hash32` comes from the external `murmur-hash` npm package,
so it is not code of this repository; the specification (section 4.1) fixes only
its contract: a deterministic mapping from strings to unsigned 32-bit integers.
Every operation is therefore parameterized by a hash function
`h : String → Nat`.
-/

/-- Typed validation errors: `InvalidArgument(Empty)` and
`InvalidArgument(TooLong)` of spec sections 4.4 and 7. -/
inductive InvalidArgument where
  | empty
  | tooLong
deriving DecidableEq

/-- State of a `HashOrbit` instance: the fields `ring` (position → owner map,
modelled as its entry list in insertion order), `sortedKeys` and `replicas`.
`replicas` is an `Int` because the constructor performs no positivity check. -/
structure HashOrbit where
  ring : List (Nat × String)
  sortedKeys : List Nat
  replicas : Int
deriving DecidableEq

namespace HashOrbit

/-- JavaScript `Map.set` semantics: an existing key is rewritten in place
(keeping its iteration position), a fresh key is appended at the end. -/
def setEntry (l : List (Nat × String)) (k : Nat) (v : String) :
    List (Nat × String) :=
  if l.any (fun e => e.1 = k) then
    l.map (fun e => if e.1 = k then (k, v) else e)
  else l ++ [(k, v)]

/-- JavaScript `Map.delete` semantics. -/
def deleteEntry (l : List (Nat × String)) (k : Nat) : List (Nat × String) :=
  l.filter (fun e => e.1 ≠ k)

/-- JavaScript `Map.get` semantics: the value of the entry with the given key. -/
def lookupPos (l : List (Nat × String)) (k : Nat) : Option String :=
  (l.find? (fun e => e.1 = k)).map (fun e => e.2)

/-- First-occurrence deduplication with an explicit seen set, modelling
iteration of a JavaScript `Set` built from a list. -/
def dedupFirstAux (seen : List String) : List String → List String
  | [] => []
  | a :: as =>
    if a ∈ seen then dedupFirstAux seen as
    else a :: dedupFirstAux (a :: seen) as

/-- First-occurrence deduplication: `Array.from(new Set(xs))`. -/
def dedupFirst (l : List String) : List String := dedupFirstAux [] l

/-- Numeric ascending sort, `[...ring.keys()].sort((a, b) => a - b)`.  The keys
of a `Map` are distinct, so the result of any comparison sort is this list. -/
def sortAsc (l : List Nat) : List Nat := List.insertionSort (· ≤ ·) l

/-- Modelled from the spec: the private `validateIdentifier` helper is absent
from src/ (only its call sites and the tests are present).  Section 4.4:
identifiers and keys must be non-empty and at most 1000 units long; violations
fail fast with a typed error, the emptiness check coming first. -/
def validateIdentifier (s : String) : Except InvalidArgument Unit :=
  if s.length = 0 then Except.error InvalidArgument.empty
  else if 1000 < s.length then Except.error InvalidArgument.tooLong
  else Except.ok ()

/-- Virtual-node key of replica index `i`: the template literal `` `${node}:${i}` ``. -/
def vkey (node : String) (i : Nat) : String := node ++ ":" ++ toString i

/-- The hash positions visited by the `for` loop of `add` and `remove`, in
loop order `i = 0, …, r-1`. -/
def positions (h : String → Nat) (node : String) (r : Nat) : List Nat :=
  (List.range r).map (fun i => h (vkey node i))

/-- The constructor: `replicas = options.replicas ?? 150`, an empty ring map
and an empty sorted index.  No validation is performed, so it is total. -/
def construct (options : Option Int) : HashOrbit :=
  { ring := [], sortedKeys := [], replicas := options.getD 150 }

/-- The `add` method: validate the identifier, write
`hash32(`node:i`) → node` for every replica index `i`, then rebuild the
sorted key index. -/
def add (h : String → Nat) (st : HashOrbit) (node : String) :
    Except InvalidArgument HashOrbit := do
  validateIdentifier node
  let r := (positions h node st.replicas.toNat).foldl
    (fun acc p => setEntry acc p node) st.ring
  pure { ring := r, sortedKeys := sortAsc (r.map Prod.fst),
         replicas := st.replicas }

/-- Modelled from the spec: `remove` is absent from src/ (only the tests call
it).  Sections 4.2 and 9: validate, recompute the same replica positions and
delete whatever entry currently occupies each of them, then rebuild the
Sorted Index; removing a non-existent node is a no-op. -/
def remove (h : String → Nat) (st : HashOrbit) (node : String) :
    Except InvalidArgument HashOrbit := do
  validateIdentifier node
  let r := (positions h node st.replicas.toNat).foldl
    (fun acc p => deleteEntry acc p) st.ring
  pure { ring := r, sortedKeys := sortAsc (r.map Prod.fst),
         replicas := st.replicas }

/-- Modelled from the spec: the private `binarySearch` helper is absent from
src/; section 4.3 and the glossary fix its contract as a lower bound — the
index of the smallest sorted key that is ≥ the position, or the array length
when no such key exists. -/
def binarySearch (keys : List Nat) (p : Nat) : Nat :=
  keys.findIdx (fun k => p ≤ k)

/-- The `get` method: validate the key, return `none` on an empty ring,
otherwise return the owner at the lower-bound position, wrapping the index to
0 past the end of the sorted array. -/
def get (h : String → Nat) (st : HashOrbit) (key : String) :
    Except InvalidArgument (Option String) := do
  validateIdentifier key
  if st.ring = [] then pure none
  else
    let position := h key
    let idx := binarySearch st.sortedKeys position
    let idx1 := if st.sortedKeys.length ≤ idx then 0 else idx
    pure ((st.sortedKeys.get? idx1).bind (lookupPos st.ring))

/-- The loop of `getN`: up to `fuel = sortedKeys.length` iterations, wrapping
the running index to 0 when it passes the end, collecting each position's
owner when it is truthy and not yet seen, and stopping early once `count`
owners are collected. -/
def getNLoop (ringL : List (Nat × String)) (keys : List Nat) (count : Int) :
    Nat → Nat → List String → List String
  | 0, _, acc => acc
  | fuel + 1, idx, acc =>
    if (acc.length : Int) < count then
      let idx1 := if keys.length ≤ idx then 0 else idx
      let acc1 :=
        match (keys.get? idx1).bind (lookupPos ringL) with
        | none => acc
        | some v => if v ≠ "" ∧ v ∉ acc then acc ++ [v] else acc
      getNLoop ringL keys count fuel (idx1 + 1) acc1
    else acc

/-- The `getN` method: validate the key, return `[]` on an empty ring or
non-positive count, otherwise walk the sorted index clockwise from the
lower-bound position collecting distinct owners. -/
def getN (h : String → Nat) (st : HashOrbit) (key : String) (count : Int) :
    Except InvalidArgument (List String) := do
  validateIdentifier key
  if st.ring = [] ∨ count ≤ 0 then pure []
  else
    pure (getNLoop st.ring st.sortedKeys count st.sortedKeys.length
      (binarySearch st.sortedKeys (h key)) [])

/-- The `size` getter: `new Set(this.ring.values()).size`. -/
def size (st : HashOrbit) : Nat := (dedupFirst (st.ring.map Prod.snd)).length

/-- The `nodes` getter: `Array.from(new Set(this.ring.values()))`. -/
def nodes (st : HashOrbit) : List String := dedupFirst (st.ring.map Prod.snd)

/-- The snapshot payload: the node list and the replica count. -/
structure RingJSON where
  nodes : List String
  replicas : Int
deriving DecidableEq

/-- Modelled from the spec: `toJSON` is absent from src/; section 4.5 and the
tests fix it as the distinct node identifiers plus the configured replica
count — never raw positions. -/
def toJSON (st : HashOrbit) : RingJSON :=
  { nodes := st.nodes, replicas := st.replicas }

/-- Modelled from the spec: `fromJSON` is absent from src/; section 4.5:
construct a ring with the stored replica count, then `add` every stored
node. -/
def fromJSON (h : String → Nat) (d : RingJSON) :
    Except InvalidArgument HashOrbit :=
  d.nodes.foldlM (fun s n => add h s n) (construct (some d.replicas))

/-- Whether the ring map contains an entry with the given key. -/
def containsKey (l : List (Nat × String)) (k : Nat) : Bool :=
  l.any (fun e => e.1 = k)

/-- The owners looked up at a list of positions, in order. -/
def valuesAt (ringL : List (Nat × String)) (ps : List Nat) : List String :=
  ps.filterMap (lookupPos ringL)

/-- Specification-level reformulation of the `getN` walk: process a concrete
list of positions in order instead of a running wrapped index. -/
def collectOwners (ringL : List (Nat × String)) (count : Int) :
    List Nat → List String → List String
  | [], acc => acc
  | p :: ps, acc =>
    if (acc.length : Int) < count then
      let acc1 :=
        match lookupPos ringL p with
        | none => acc
        | some v => if v ≠ "" ∧ v ∉ acc then acc ++ [v] else acc
      collectOwners ringL count ps acc1
    else acc

/-- The `getN` walk with the count bound removed: collect every distinct
truthy owner along the position list. -/
def collectAllOwners (ringL : List (Nat × String)) :
    List Nat → List String → List String
  | [], acc => acc
  | p :: ps, acc =>
    let acc1 :=
      match lookupPos ringL p with
      | none => acc
      | some v => if v ≠ "" ∧ v ∉ acc then acc ++ [v] else acc
    collectAllOwners ringL ps acc1

/-- The minimum of a list of naturals, `none` on the empty list. -/
def listMin : List Nat → Option Nat
  | [] => none
  | a :: as =>
    match listMin as with
    | none => some a
    | some m => some (Nat.min a m)

/-- The position `get` resolves to, written after the words of the spec: the
smallest element of the Sorted Index that is ≥ the hashed position, or the
first element of the Sorted Index when no such element exists. -/
def specResolve (keys : List Nat) (p : Nat) : Option Nat :=
  match listMin (keys.filter (fun k => p ≤ k)) with
  | some m => some m
  | none => keys.head?

/-- A concrete deterministic hash used to instantiate witnesses. -/
def hLen : String → Nat := fun s => s.length

/-- A 1001-character identifier, exceeding the maximum length. -/
def longStr : String := String.mk (List.replicate 1001 'a')

/-- A hash with a deliberate cross-node position collision: the virtual keys
`A:0`, `B:0` (and every lookup key) all hash to position 0, while `A:1` and
`B:1` stay distinct. -/
def cex3Hash : String → Nat :=
  fun s => if s = "A:1" then 5 else if s = "B:1" then 7 else 0

/-- A hash mapping every input to position 0, so that any two virtual nodes
collide. -/
def cex5Hash : String → Nat := fun _ => 0

theorem exceptBind_ok {α β : Type} (a : α) (f : α → Except InvalidArgument β) :
    (Except.ok a >>= f) = f a := rfl

theorem exceptBind_error {α β : Type} (e : InvalidArgument)
    (f : α → Except InvalidArgument β) :
    ((Except.error e : Except InvalidArgument α) >>= f) = Except.error e := rfl

theorem validate_ok_of (s : String) (h0 : s.length ≠ 0) (h1 : s.length ≤ 1000) :
    validateIdentifier s = Except.ok () := by
  simp [validateIdentifier, h0, Nat.not_lt.mpr h1]

theorem mem_dedupFirstAux (l : List String) :
    ∀ (seen : List String) (x : String),
      x ∈ dedupFirstAux seen l ↔ x ∈ l ∧ x ∉ seen := by
  induction l with
  | nil => intro seen x; simp [dedupFirstAux]
  | cons a as ih =>
    intro seen x
    by_cases ha : a ∈ seen
    · by_cases hxa : x = a
      · subst hxa; simp [dedupFirstAux, if_pos ha, ih, ha]
      · simp [dedupFirstAux, if_pos ha, ih, hxa]
    · by_cases hxa : x = a
      · subst hxa; simp [dedupFirstAux, if_neg ha, ih, ha]
      · simp [dedupFirstAux, if_neg ha, ih, hxa]

theorem nodup_dedupFirstAux (l : List String) :
    ∀ seen, (dedupFirstAux seen l).Nodup := by
  induction l with
  | nil => intro seen; simp [dedupFirstAux]
  | cons a as ih =>
    intro seen
    by_cases ha : a ∈ seen
    · simpa [dedupFirstAux, if_pos ha] using ih seen
    · rw [dedupFirstAux, if_neg ha]
      refine List.nodup_cons.mpr ⟨?_, ih (a :: seen)⟩
      intro hmem
      exact ((mem_dedupFirstAux as (a :: seen) a).mp hmem).2 (List.mem_cons_self a seen)

theorem mem_dedupFirst (l : List String) (x : String) :
    x ∈ dedupFirst l ↔ x ∈ l := by
  simp [dedupFirst, mem_dedupFirstAux]

theorem nodup_dedupFirst (l : List String) : (dedupFirst l).Nodup :=
  nodup_dedupFirstAux l []

theorem toFinset_dedupFirst (l : List String) :
    (dedupFirst l).toFinset = l.toFinset := by
  ext x; simp [List.mem_toFinset, mem_dedupFirst]

theorem length_dedupFirst_eq_card (l : List String) :
    (dedupFirst l).length = l.toFinset.card := by
  rw [← toFinset_dedupFirst]
  exact (List.toFinset_card_of_nodup (nodup_dedupFirst l)).symm

/-- C10: the constructor never raises for any options value: replicas is taken
as supplied (defaulting to 150 when absent) with no positivity or integrality
check — `construct` is a total function on every `Option Int` — and every
freshly constructed ring has an empty position map and empty sorted index, so
`size = 0` and `nodes = []` even for `replicas ≤ 0`. -/
theorem constructor_total_empty (o : Option Int) :
    (construct o).ring = [] ∧ (construct o).sortedKeys = [] ∧
    (construct o).replicas = o.getD 150 ∧
    size (construct o) = 0 ∧ nodes (construct o) = [] :=
  ⟨rfl, rfl, rfl, rfl, rfl⟩

/-- C9: in every ring state, `size` equals the number of distinct physical
node identifiers owning at least one position, and `nodes` returns exactly
that set (without duplicates) — both are derived from the position map. -/
theorem size_nodes_derived (st : HashOrbit) :
    size st = (st.ring.map Prod.snd).toFinset.card ∧
    size st = (nodes st).length ∧ (nodes st).Nodup ∧
    (∀ n : String, n ∈ nodes st ↔ ∃ p : Nat, (p, n) ∈ st.ring) := by
  refine ⟨length_dedupFirst_eq_card _, rfl, nodup_dedupFirst _, fun n => ?_⟩
  rw [nodes, mem_dedupFirst, List.mem_map]
  constructor
  · rintro ⟨⟨p, v⟩, hm, rfl⟩; exact ⟨p, hm⟩
  · rintro ⟨p, hm⟩; exact ⟨(p, n), hm, rfl⟩

/-- C8: `get` is a deterministic function of the ring state (position map and
sorted index) and the key: two states agreeing on those fields yield the same
owner for every key, with no dependence on call history. -/
theorem get_deterministic (h : String → Nat) (st₁ st₂ : HashOrbit)
    (key : String) (hr : st₁.ring = st₂.ring)
    (hs : st₁.sortedKeys = st₂.sortedKeys) :
    get h st₁ key = get h st₂ key := by
  unfold get
  rw [hr, hs]

theorem get_deterministic_witness :
    ((⟨[(1, "n")], [1], 5⟩ : HashOrbit).ring = (⟨[(1, "n")], [1], 9⟩ : HashOrbit).ring) ∧
    ((⟨[(1, "n")], [1], 5⟩ : HashOrbit).sortedKeys = (⟨[(1, "n")], [1], 9⟩ : HashOrbit).sortedKeys) ∧
    get hLen ⟨[(1, "n")], [1], 5⟩ "k" = get hLen ⟨[(1, "n")], [1], 9⟩ "k" :=
  ⟨rfl, rfl, get_deterministic hLen ⟨[(1, "n")], [1], 5⟩ ⟨[(1, "n")], [1], 9⟩ "k" rfl rfl⟩

/-- C7: on an empty ring, `get` returns absence (`none`, not an error) for
every valid key, `getN` returns the empty sequence for every count, `size` is
0 and `nodes` is `[]`. -/
theorem empty_ring_behavior (h : String → Nat) (st : HashOrbit) (key : String)
    (count : Int) (hv : validateIdentifier key = Except.ok ())
    (hr : st.ring = []) :
    get h st key = Except.ok none ∧ getN h st key count = Except.ok [] ∧
    size st = 0 ∧ nodes st = [] := by
  refine ⟨?_, ?_, ?_, ?_⟩
  · simp [get, hv, hr, exceptBind_ok]
  · simp [getN, hv, hr, exceptBind_ok]
  · simp [size, hr, dedupFirst, dedupFirstAux]
  · simp [nodes, hr, dedupFirst, dedupFirstAux]

theorem empty_ring_behavior_witness :
    validateIdentifier "k" = Except.ok () ∧ (construct none).ring = [] ∧
    (get hLen (construct none) "k" = Except.ok none ∧
      getN hLen (construct none) "k" 3 = Except.ok [] ∧
      size (construct none) = 0 ∧ nodes (construct none) = []) :=
  ⟨rfl, rfl, empty_ring_behavior hLen (construct none) "k" 3 rfl rfl⟩

/-- C6: for every input to `add`, `remove`, `get` and `getN`, an empty
identifier or key yields the typed Empty error and one longer than 1000 units
the typed TooLong error — the operation returns the error and produces no
state, so the ring is unchanged — while every valid identifier or key never
yields an error. -/
theorem validation_fail_fast (h : String → Nat) (st : HashOrbit) (s : String)
    (count : Int) :
    (s.length = 0 →
      add h st s = Except.error InvalidArgument.empty ∧
      remove h st s = Except.error InvalidArgument.empty ∧
      get h st s = Except.error InvalidArgument.empty ∧
      getN h st s count = Except.error InvalidArgument.empty) ∧
    (1000 < s.length →
      add h st s = Except.error InvalidArgument.tooLong ∧
      remove h st s = Except.error InvalidArgument.tooLong ∧
      get h st s = Except.error InvalidArgument.tooLong ∧
      getN h st s count = Except.error InvalidArgument.tooLong) ∧
    (s.length ≠ 0 → s.length ≤ 1000 →
      (∃ st1, add h st s = Except.ok st1) ∧
      (∃ st1, remove h st s = Except.ok st1) ∧
      (∃ v, get h st s = Except.ok v) ∧
      (∃ vs, getN h st s count = Except.ok vs)) := by
  refine ⟨fun h0 => ?_, fun h1 => ?_, fun h0 h1 => ?_⟩
  · have hv : validateIdentifier s = Except.error InvalidArgument.empty := by
      simp [validateIdentifier, h0]
    exact ⟨by simp [add, hv, exceptBind_error], by simp [remove, hv, exceptBind_error],
      by simp [get, hv, exceptBind_error], by simp [getN, hv, exceptBind_error]⟩
  · have h0 : s.length ≠ 0 := by omega
    have hv : validateIdentifier s = Except.error InvalidArgument.tooLong := by
      simp [validateIdentifier, h0, h1]
    exact ⟨by simp [add, hv, exceptBind_error], by simp [remove, hv, exceptBind_error],
      by simp [get, hv, exceptBind_error], by simp [getN, hv, exceptBind_error]⟩
  · have hv := validate_ok_of s h0 h1
    refine ⟨?_, ?_, ?_, ?_⟩
    · unfold add
      rw [hv, exceptBind_ok]
      exact ⟨_, rfl⟩
    · unfold remove
      rw [hv, exceptBind_ok]
      exact ⟨_, rfl⟩
    · unfold get
      rw [hv, exceptBind_ok]
      by_cases hr : st.ring = []
      · rw [if_pos hr]; exact ⟨_, rfl⟩
      · rw [if_neg hr]; exact ⟨_, rfl⟩
    · unfold getN
      rw [hv, exceptBind_ok]
      by_cases hr : st.ring = [] ∨ count ≤ 0
      · rw [if_pos hr]; exact ⟨_, rfl⟩
      · rw [if_neg hr]; exact ⟨_, rfl⟩

theorem validation_fail_fast_witness :
    ("".length = 0 ∧ add hLen (construct none) "" = Except.error InvalidArgument.empty) ∧
    (1000 < longStr.length ∧
      get hLen (construct none) longStr = Except.error InvalidArgument.tooLong) ∧
    ("ok".length ≠ 0 ∧ "ok".length ≤ 1000 ∧
      ∃ vs, getN hLen (construct none) "ok" 2 = Except.ok vs) := by
  have hlong : 1000 < longStr.length := by
    have h : longStr.length = 1001 := by
      show (String.mk (List.replicate 1001 'a')).length = 1001
      rw [String.length]
      exact List.length_replicate 1001 'a'
    omega
  refine ⟨⟨rfl, ((validation_fail_fast hLen (construct none) "" 2).1 rfl).1⟩,
    ⟨hlong, ((validation_fail_fast hLen (construct none) longStr 2).2.1 hlong).2.2.1⟩,
    ⟨by decide, by decide,
      ((validation_fail_fast hLen (construct none) "ok" 2).2.2 (by decide) (by decide)).2.2.2⟩⟩

theorem setEntry_allVal (l : List (Nat × String)) (k : Nat) (v : String) :
    ∀ e ∈ setEntry l k v, e.1 = k → e.2 = v := by
  intro e he hek
  unfold setEntry at he
  split at he
  · obtain ⟨a, _, rfl⟩ := List.mem_map.mp he
    by_cases hak : a.1 = k
    · simp [hak]
    · simp only [if_neg hak] at hek ⊢
      exact absurd hek hak
  · next hna =>
    rcases List.mem_append.mp he with hl | hr
    · exact absurd (List.any_eq_true.mpr ⟨e, hl, by simp [hek]⟩) hna
    · simp only [List.mem_singleton] at hr
      subst hr; rfl

theorem setEntry_allVal_pres (l : List (Nat × String)) (k k' : Nat) (v : String)
    (hl : ∀ e ∈ l, e.1 = k → e.2 = v) :
    ∀ e ∈ setEntry l k' v, e.1 = k → e.2 = v := by
  intro e he hek
  unfold setEntry at he
  split at he
  · obtain ⟨a, ha, rfl⟩ := List.mem_map.mp he
    by_cases hak : a.1 = k'
    · rw [if_pos hak]
    · simp only [if_neg hak] at hek ⊢
      exact hl a ha hek
  · rcases List.mem_append.mp he with hml | hmr
    · exact hl e hml hek
    · simp only [List.mem_singleton] at hmr
      subst hmr; rfl

theorem setEntry_self_noop (l : List (Nat × String)) (k : Nat) (v : String)
    (hc : containsKey l k = true) (hv : ∀ e ∈ l, e.1 = k → e.2 = v) :
    setEntry l k v = l := by
  unfold containsKey at hc
  unfold setEntry
  rw [if_pos hc]
  have hcongr : ∀ e ∈ l, (if e.1 = k then (k, v) else e) = e := by
    intro e he
    by_cases hek : e.1 = k
    · obtain ⟨p, w⟩ := e
      simp only at hek
      have hw : w = v := hv (p, w) he hek
      simp [hek, hw]
    · simp [hek]
  calc l.map (fun e => if e.1 = k then (k, v) else e)
      = l.map id := List.map_congr_left hcongr
    _ = l := List.map_id l

theorem containsKey_setEntry_pres (l : List (Nat × String)) (k k' : Nat)
    (v : String) (hc : containsKey l k = true) :
    containsKey (setEntry l k' v) k = true := by
  unfold containsKey at hc ⊢
  obtain ⟨e, he, hek⟩ := List.any_eq_true.mp hc
  unfold setEntry
  split
  · apply List.any_eq_true.mpr
    refine ⟨if e.1 = k' then (k', v) else e, List.mem_map_of_mem _ he, ?_⟩
    by_cases hek' : e.1 = k'
    · simp only [decide_eq_true_eq] at hek
      rw [if_pos hek']
      simp only [decide_eq_true_eq]
      exact hek'.symm.trans hek
    · simpa [hek'] using hek
  · exact List.any_eq_true.mpr ⟨e, List.mem_append_left _ he, hek⟩

theorem containsKey_setEntry_self (l : List (Nat × String)) (k : Nat)
    (v : String) : containsKey (setEntry l k v) k = true := by
  unfold containsKey setEntry
  split
  · next hc =>
    obtain ⟨e, he, hek⟩ := List.any_eq_true.mp hc
    apply List.any_eq_true.mpr
    refine ⟨(k, v), List.mem_map.mpr ⟨e, he, ?_⟩, by simp⟩
    simp only [decide_eq_true_eq] at hek
    simp [hek]
  · exact List.any_eq_true.mpr ⟨(k, v), List.mem_append_right _ (by simp), by simp⟩

theorem foldl_set_allVal_pres (node : String) (ps : List Nat) :
    ∀ (l : List (Nat × String)) (k : Nat),
      (∀ e ∈ l, e.1 = k → e.2 = node) →
      ∀ e ∈ ps.foldl (fun acc p => setEntry acc p node) l, e.1 = k → e.2 = node := by
  induction ps with
  | nil => intro l k hl; simpa using hl
  | cons p ps ih =>
    intro l k hl
    simp only [List.foldl_cons]
    exact ih (setEntry l p node) k (setEntry_allVal_pres l k p node hl)

theorem foldl_set_containsKey_pres (node : String) (ps : List Nat) :
    ∀ (l : List (Nat × String)) (k : Nat), containsKey l k = true →
      containsKey (ps.foldl (fun acc p => setEntry acc p node) l) k = true := by
  induction ps with
  | nil => intro l k hl; simpa using hl
  | cons p ps ih =>
    intro l k hl
    simp only [List.foldl_cons]
    exact ih (setEntry l p node) k (containsKey_setEntry_pres l k p node hl)

theorem foldl_set_mem (node : String) (ps : List Nat) :
    ∀ (l : List (Nat × String)) (k : Nat), k ∈ ps →
      containsKey (ps.foldl (fun acc p => setEntry acc p node) l) k = true ∧
      (∀ e ∈ ps.foldl (fun acc p => setEntry acc p node) l,
        e.1 = k → e.2 = node) := by
  induction ps with
  | nil => intro l k hk; exact absurd hk (List.not_mem_nil k)
  | cons p ps ih =>
    intro l k hk
    simp only [List.foldl_cons]
    by_cases hkp : k ∈ ps
    · exact ih (setEntry l p node) k hkp
    · have hkp' : k = p := by
        rcases List.mem_cons.mp hk with h | h
        · exact h
        · exact absurd h hkp
      subst hkp'
      exact ⟨foldl_set_containsKey_pres node ps (setEntry l k node) k
          (containsKey_setEntry_self l k node),
        foldl_set_allVal_pres node ps (setEntry l k node) k
          (setEntry_allVal l k node)⟩

theorem foldl_set_noop (node : String) (ps : List Nat) :
    ∀ (l : List (Nat × String)),
      (∀ k ∈ ps, containsKey l k = true ∧ ∀ e ∈ l, e.1 = k → e.2 = node) →
      ps.foldl (fun acc p => setEntry acc p node) l = l := by
  induction ps with
  | nil => intro l _; rfl
  | cons p ps ih =>
    intro l hl
    have hp := hl p (List.mem_cons_self p ps)
    have hset : setEntry l p node = l := setEntry_self_noop l p node hp.1 hp.2
    simp only [List.foldl_cons, hset]
    exact ih l (fun k hk => hl k (List.mem_cons_of_mem _ hk))

/-- C2: `add` is idempotent: calling `add(node)` twice leaves the ring in
exactly the same state as calling it once — the second call recomputes the
identical replica positions and overwrites them in place with the same owner,
so the position map, sorted index, size, nodes, and position count are all
unchanged. -/
theorem add_idempotent (h : String → Nat) (st : HashOrbit) (node : String) :
    (add h st node).bind (fun st1 => add h st1 node) = add h st node := by
  cases hval : validateIdentifier node with
  | error e =>
    have hadd : add h st node = Except.error e := by
      unfold add; rw [hval]; rfl
    rw [hadd]; rfl
  | ok u =>
    cases u
    set ps := positions h node st.replicas.toNat with hps
    set r1 := ps.foldl (fun acc p => setEntry acc p node) st.ring with hr1
    have hadd : add h st node =
        Except.ok ⟨r1, sortAsc (r1.map Prod.fst), st.replicas⟩ := by
      unfold add; rw [hval]; rfl
    rw [hadd]
    show add h ⟨r1, sortAsc (r1.map Prod.fst), st.replicas⟩ node = _
    unfold add
    rw [hval, exceptBind_ok]
    have hnoop : ps.foldl (fun acc p => setEntry acc p node) r1 = r1 :=
      foldl_set_noop node ps r1 (fun k hk => foldl_set_mem node ps st.ring k hk)
    simp only [hnoop]
    rfl

theorem foldl_delete_eq_filter (ps : List Nat) :
    ∀ l : List (Nat × String),
      ps.foldl (fun acc p => deleteEntry acc p) l =
        l.filter (fun e => e.1 ∉ ps) := by
  induction ps with
  | nil =>
    intro l
    simp [List.filter_eq_self]
  | cons p ps ih =>
    intro l
    simp only [List.foldl_cons]
    rw [ih (deleteEntry l p)]
    unfold deleteEntry
    rw [List.filter_filter]
    apply List.filter_congr
    intro a _
    by_cases h1 : a.1 = p <;> by_cases h2 : a.1 ∈ ps <;>
      simp [h1, h2, List.mem_cons]

theorem filter_map_setfn (qs : List Nat) (p : Nat) (v : String) (hp : p ∈ qs) :
    ∀ l : List (Nat × String),
      (l.map (fun e => if e.1 = p then (p, v) else e)).filter
          (fun e => e.1 ∉ qs) =
        l.filter (fun e => e.1 ∉ qs) := by
  intro l
  induction l with
  | nil => rfl
  | cons a l ih =>
    simp only [decide_not] at ih
    by_cases hap : a.1 = p
    · have h2 : a.1 ∈ qs := by rw [hap]; exact hp
      simp [List.filter_cons, hap, hp, h2, ih]
    · by_cases hq : a.1 ∈ qs <;> simp [List.filter_cons, hap, hq, ih]

theorem setEntry_filter_out (qs : List Nat) (p : Nat) (v : String)
    (hp : p ∈ qs) (l : List (Nat × String)) :
    (setEntry l p v).filter (fun e => e.1 ∉ qs) =
      l.filter (fun e => e.1 ∉ qs) := by
  unfold setEntry
  split
  · exact filter_map_setfn qs p v hp l
  · have h1 : ((p, v) : Nat × String).1 ∈ qs := hp
    simp [List.filter_append, h1]

theorem foldl_set_filter_out (v : String) (qs : List Nat) (ps : List Nat) :
    ps ⊆ qs →
    ∀ l : List (Nat × String),
      (ps.foldl (fun acc p => setEntry acc p v) l).filter
          (fun e => e.1 ∉ qs) =
        l.filter (fun e => e.1 ∉ qs) := by
  induction ps with
  | nil => intro _ l; rfl
  | cons p ps ih =>
    intro hsub l
    simp only [List.foldl_cons]
    rw [ih (fun q hq => hsub (List.mem_cons_of_mem _ hq)) (setEntry l p v)]
    exact setEntry_filter_out qs p v (hsub (List.mem_cons_self p ps)) l

/-- C5 counterexample: with every virtual key hashing to position 0, the ring
`[(0, "A")]` (reached by `add("A")` with one replica) is not restored by
`add("B")` followed by `remove("B")`: `add("B")` silently overwrites the
position owned by `"A"`, and `remove("B")` deletes that entry outright,
leaving an empty ring instead of the pre-add state. -/
theorem add_remove_cex :
    add cex5Hash (construct (some 1)) "A" = Except.ok ⟨[(0, "A")], [0], 1⟩ ∧
    add cex5Hash ⟨[(0, "A")], [0], 1⟩ "B" = Except.ok ⟨[(0, "B")], [0], 1⟩ ∧
    remove cex5Hash ⟨[(0, "B")], [0], 1⟩ "B" = Except.ok ⟨[], [], 1⟩ ∧
    (⟨[], [], 1⟩ : HashOrbit) ≠ ⟨[(0, "A")], [0], 1⟩ :=
  ⟨rfl, rfl, rfl, by decide⟩

/-- C5 amended: `add(node)` followed by `remove(node)` returns the ring to its
exact pre-add state provided none of the node's recomputed replica positions
collides with a position already present in the ring (in particular the node
is not already present), the pre-add state satisfying the sorted-index
invariant that every reachable state has.  Without the collision hypothesis
the property fails (see the counterexample). -/
theorem add_remove_restores (h : String → Nat) (st : HashOrbit) (node : String)
    (hv : validateIdentifier node = Except.ok ())
    (hfresh : ∀ e ∈ st.ring, e.1 ∉ positions h node st.replicas.toNat)
    (hinv : st.sortedKeys = sortAsc (st.ring.map Prod.fst)) :
    (add h st node).bind (fun st1 => remove h st1 node) = Except.ok st := by
  set ps := positions h node st.replicas.toNat with hps
  set r1 := ps.foldl (fun acc p => setEntry acc p node) st.ring with hr1
  have hadd : add h st node =
      Except.ok ⟨r1, sortAsc (r1.map Prod.fst), st.replicas⟩ := by
    unfold add; rw [hv]; rfl
  rw [hadd]
  show remove h ⟨r1, sortAsc (r1.map Prod.fst), st.replicas⟩ node = _
  unfold remove
  rw [hv, exceptBind_ok]
  have hr2 : ps.foldl (fun acc p => deleteEntry acc p) r1 = st.ring := by
    rw [foldl_delete_eq_filter ps r1, hr1,
      foldl_set_filter_out node ps ps (List.Subset.refl ps) st.ring]
    apply List.filter_eq_self.mpr
    intro e he
    exact decide_eq_true (hfresh e he)
  simp only [hr2]
  obtain ⟨rg, sk, rp⟩ := st
  simp only at hinv ⊢
  rw [hinv]
  rfl

theorem add_remove_restores_witness :
    validateIdentifier "AB" = Except.ok () ∧
    (∀ e ∈ (construct (some 2)).ring,
      e.1 ∉ positions hLen "AB" (construct (some 2)).replicas.toNat) ∧
    (construct (some 2)).sortedKeys =
      sortAsc ((construct (some 2)).ring.map Prod.fst) ∧
    (add hLen (construct (some 2)) "AB").bind
      (fun st1 => remove hLen st1 "AB") = Except.ok (construct (some 2)) :=
  ⟨rfl, by decide, rfl,
    add_remove_restores hLen (construct (some 2)) "AB" rfl (by decide) rfl⟩

theorem listMin_of_sorted (l : List Nat) (hs : List.Pairwise (· ≤ ·) l) :
    listMin l = l.head? := by
  induction l with
  | nil => rfl
  | cons a as ih =>
    have has : ∀ b ∈ as, a ≤ b := fun b hb => (List.pairwise_cons.mp hs).1 b hb
    have ih' := ih (List.pairwise_cons.mp hs).2
    cases as with
    | nil => rfl
    | cons b bs =>
      rw [listMin, ih']
      simp only [List.head?]
      exact congrArg some (Nat.min_eq_left (has b (List.mem_cons_self b bs)))

theorem filter_head_eq_get_findIdx (l : List Nat) (q : Nat → Bool) :
    (l.filter q).head? = l.get? (l.findIdx q) := by
  induction l with
  | nil => rfl
  | cons a l ih =>
    rw [List.filter_cons, List.findIdx_cons q a l]
    cases hq : q a with
    | true => simp [hq]
    | false => simpa [hq] using ih

theorem sortAsc_length (l : List Nat) : (sortAsc l).length = l.length :=
  (List.perm_insertionSort (· ≤ ·) l).length_eq

theorem sortAsc_sorted (l : List Nat) : List.Pairwise (· ≤ ·) (sortAsc l) :=
  List.sorted_insertionSort (· ≤ ·) l

theorem sortAsc_perm (l : List Nat) : List.Perm (sortAsc l) l :=
  List.perm_insertionSort (· ≤ ·) l

/-- C1: for every valid key and non-empty ring (in a state satisfying the
sorted-index invariant), `get` computes `position = hash(key)` and returns the
ring's owner at the resolved position: the smallest element of the sorted
index ≥ the position, or — when no such element exists — the first element of
the sorted index (wraparound).  `specResolve` is written after the words of
the spec. -/
theorem get_lower_bound_wraparound (h : String → Nat) (st : HashOrbit)
    (key : String) (hv : validateIdentifier key = Except.ok ())
    (hne : st.ring ≠ [])
    (hinv : st.sortedKeys = sortAsc (st.ring.map Prod.fst)) :
    get h st key =
      Except.ok ((specResolve st.sortedKeys (h key)).bind (lookupPos st.ring)) := by
  unfold get
  rw [hv, exceptBind_ok, if_neg hne]
  have hsorted : List.Pairwise (· ≤ ·) st.sortedKeys := by
    rw [hinv]; exact sortAsc_sorted _
  set keys := st.sortedKeys with hkeys
  set p := h key with hp
  show Except.ok _ = Except.ok _
  congr 1
  unfold specResolve binarySearch
  have hfg := filter_head_eq_get_findIdx keys (fun k => p ≤ k)
  by_cases hidx : keys.length ≤ keys.findIdx (fun k => p ≤ k)
  · have hnone : keys.get? (keys.findIdx (fun k => p ≤ k)) = none :=
      List.get?_eq_none.mpr hidx
    have hfilter : keys.filter (fun k => p ≤ k) = [] :=
      List.head?_eq_none_iff.mp (hfg.trans hnone)
    rw [if_pos hidx, hfilter]
    show (keys.get? 0).bind (lookupPos st.ring) =
      (match listMin [] with
        | some m => some m
        | none => keys.head?).bind (lookupPos st.ring)
    rw [List.get?_zero]
    rfl
  · rw [if_neg hidx]
    have hmin : listMin (keys.filter (fun k => p ≤ k)) =
        keys.get? (keys.findIdx (fun k => p ≤ k)) := by
      rw [listMin_of_sorted _ (hsorted.filter _), hfg]
    cases hk0 : keys.get? (keys.findIdx (fun k => p ≤ k)) with
    | none =>
      exact absurd (List.get?_eq_none.mp hk0) hidx
    | some k0 =>
      rw [hk0] at hmin
      rw [hmin]

theorem get_lower_bound_wraparound_witness :
    validateIdentifier "hi" = Except.ok () ∧
    ((⟨[(3, "A"), (7, "B")], [3, 7], 1⟩ : HashOrbit).ring ≠ []) ∧
    ((⟨[(3, "A"), (7, "B")], [3, 7], 1⟩ : HashOrbit).sortedKeys =
      sortAsc ((⟨[(3, "A"), (7, "B")], [3, 7], 1⟩ : HashOrbit).ring.map Prod.fst)) ∧
    get hLen ⟨[(3, "A"), (7, "B")], [3, 7], 1⟩ "hi" =
      Except.ok ((specResolve [3, 7] (hLen "hi")).bind
        (lookupPos [(3, "A"), (7, "B")])) :=
  ⟨rfl, by decide, rfl,
    get_lower_bound_wraparound hLen ⟨[(3, "A"), (7, "B")], [3, 7], 1⟩ "hi"
      rfl (by decide) rfl⟩

theorem collectOwners_stop (ringL : List (Nat × String)) (count : Int)
    (ps : List Nat) (acc : List String)
    (hc : ¬ (acc.length : Int) < count) :
    collectOwners ringL count ps acc = acc := by
  cases ps <;> simp [collectOwners, hc]

theorem getNLoop_eq_collect (ringL : List (Nat × String)) (keys : List Nat)
    (count : Int) :
    ∀ (fuel idx : Nat) (acc : List String),
      idx ≤ keys.length → fuel ≤ keys.length →
      getNLoop ringL keys count fuel idx acc =
        collectOwners ringL count ((keys.drop idx ++ keys).take fuel) acc := by
  intro fuel
  induction fuel with
  | zero => intro idx acc _ _; simp [getNLoop, collectOwners]
  | succ fuel ih =>
    intro idx acc hidx hfuel
    by_cases hcnt : (acc.length : Int) < count
    · have hklen : 0 < keys.length := by omega
      have hfuel' : fuel ≤ keys.length := by omega
      by_cases hge : keys.length ≤ idx
      · have hidxeq : idx = keys.length := le_antisymm hidx hge
        have hkne : keys ≠ [] := by
          intro hk
          rw [hk] at hklen
          simp at hklen
        obtain ⟨k0, rest, hke⟩ := List.exists_cons_of_ne_nil hkne
        subst hke
        rw [getNLoop, if_pos hcnt, if_pos hge]
        have hwin : (((k0 :: rest).drop idx ++ (k0 :: rest)).take (fuel + 1)) =
            k0 :: rest.take fuel := by
          rw [hidxeq, List.drop_length, List.nil_append, List.take_succ_cons]
        rw [hwin, collectOwners, if_pos hcnt]
        have hrest : fuel ≤ rest.length := by
          simp only [List.length_cons] at hfuel
          omega
        rw [ih 1 _ (by simp) hfuel']
        have hwin2 : (((k0 :: rest).drop 1 ++ (k0 :: rest)).take fuel) =
            rest.take fuel := by
          rw [List.drop_one, List.tail_cons, List.take_append_of_le_length hrest]
        rw [hwin2]
        rfl
      · have hlt : idx < keys.length := Nat.lt_of_not_le hge
        rw [getNLoop, if_pos hcnt, if_neg hge]
        have hdrop : keys.drop idx =
            keys.get ⟨idx, hlt⟩ :: keys.drop (idx + 1) :=
          List.drop_eq_get_cons hlt
        have hwin : ((keys.drop idx ++ keys).take (fuel + 1)) =
            keys.get ⟨idx, hlt⟩ :: ((keys.drop (idx + 1) ++ keys).take fuel) := by
          rw [hdrop, List.cons_append, List.take_succ_cons]
        rw [hwin, collectOwners, if_pos hcnt]
        rw [ih (idx + 1) _ (by omega) hfuel']
        rw [List.get?_eq_get hlt]
        rfl
    · rw [getNLoop, if_neg hcnt, collectOwners_stop ringL count _ acc hcnt]

theorem collectOwners_extends (ringL : List (Nat × String)) (count : Int)
    (ps : List Nat) :
    ∀ acc : List String, ∃ t, collectOwners ringL count ps acc = acc ++ t := by
  induction ps with
  | nil => intro acc; exact ⟨[], by simp [collectOwners]⟩
  | cons p ps ih =>
    intro acc
    by_cases hcnt : (acc.length : Int) < count
    · rw [collectOwners, if_pos hcnt]
      cases hlk : lookupPos ringL p with
      | none => simpa [hlk] using ih acc
      | some v =>
        by_cases hv : v ≠ "" ∧ v ∉ acc
        · obtain ⟨t, ht⟩ := ih (acc ++ [v])
          refine ⟨[v] ++ t, ?_⟩
          simp only [hlk, if_pos hv, ht, List.append_assoc]
        · simpa [hlk, hv] using ih acc
    · rw [collectOwners, if_neg hcnt]
      exact ⟨[], by simp⟩

theorem collectOwners_nodup (ringL : List (Nat × String)) (count : Int)
    (ps : List Nat) :
    ∀ acc : List String, acc.Nodup → (collectOwners ringL count ps acc).Nodup := by
  induction ps with
  | nil => intro acc hacc; simpa [collectOwners] using hacc
  | cons p ps ih =>
    intro acc hacc
    by_cases hcnt : (acc.length : Int) < count
    · rw [collectOwners, if_pos hcnt]
      cases hlk : lookupPos ringL p with
      | none => simpa [hlk] using ih acc hacc
      | some v =>
        by_cases hv : v ≠ "" ∧ v ∉ acc
        · simp only [hlk, if_pos hv]
          refine ih (acc ++ [v]) ?_
          simp [List.nodup_append, hacc, hv.2]
        · simpa [hlk, hv] using ih acc hacc
    · rw [collectOwners, if_neg hcnt]
      exact hacc

theorem collectAllOwners_step (ringL : List (Nat × String)) (p : Nat)
    (ps : List Nat) (acc : List String) :
    collectAllOwners ringL (p :: ps) acc =
      collectAllOwners ringL ps
        (match lookupPos ringL p with
          | none => acc
          | some v => if v ≠ "" ∧ v ∉ acc then acc ++ [v] else acc) := rfl

theorem collectAllOwners_extends (ringL : List (Nat × String)) (ps : List Nat) :
    ∀ acc : List String, ∃ t, collectAllOwners ringL ps acc = acc ++ t := by
  induction ps with
  | nil => intro acc; exact ⟨[], by simp [collectAllOwners]⟩
  | cons p ps ih =>
    intro acc
    rw [collectAllOwners_step]
    cases hlk : lookupPos ringL p with
    | none => simpa [hlk] using ih acc
    | some v =>
      by_cases hv : v ≠ "" ∧ v ∉ acc
      · obtain ⟨t, ht⟩ := ih (acc ++ [v])
        refine ⟨[v] ++ t, ?_⟩
        simp only [hlk, if_pos hv, ht, List.append_assoc]
      · simpa [hlk, hv] using ih acc

theorem collectOwners_eq_take (ringL : List (Nat × String)) (count : Int)
    (ps : List Nat) :
    ∀ acc : List String,
      collectOwners ringL count ps acc =
        (collectAllOwners ringL ps acc).take (max acc.length count.toNat) := by
  induction ps with
  | nil =>
    intro acc
    have : acc.length ≤ max acc.length count.toNat := Nat.le_max_left _ _
    simp [collectOwners, collectAllOwners, List.take_of_length_le this]
  | cons p ps ih =>
    intro acc
    by_cases hcnt : (acc.length : Int) < count
    · have hlen : acc.length < count.toNat := by omega
      rw [collectOwners, if_pos hcnt, collectAllOwners_step]
      cases hlk : lookupPos ringL p with
      | none =>
        simp only [hlk]
        rw [ih acc]
      | some v =>
        by_cases hv : v ≠ "" ∧ v ∉ acc
        · simp only [hlk, if_pos hv]
          rw [ih (acc ++ [v])]
          have h1 : max acc.length count.toNat = count.toNat :=
            Nat.max_eq_right (Nat.le_of_lt hlen)
          have h2 : max (acc ++ [v]).length count.toNat = count.toNat := by
            apply Nat.max_eq_right
            simp only [List.length_append, List.length_singleton]
            omega
          rw [h1, h2]
        · simp only [hlk, if_neg hv]
          rw [ih acc]
    · have hlen : count.toNat ≤ acc.length := by omega
      rw [collectOwners_stop ringL count _ acc hcnt]
      obtain ⟨t, ht⟩ := collectAllOwners_extends ringL (p :: ps) acc
      rw [ht, Nat.max_eq_left hlen]
      exact (List.take_left acc t).symm

theorem dedupFirstAux_seen_congr (s₁ s₂ : List String)
    (hs : ∀ x, x ∈ s₁ ↔ x ∈ s₂) :
    ∀ l : List String, dedupFirstAux s₁ l = dedupFirstAux s₂ l := by
  intro l
  induction l generalizing s₁ s₂ with
  | nil => rfl
  | cons a as ih =>
    by_cases ha : a ∈ s₁
    · rw [dedupFirstAux, if_pos ha, dedupFirstAux, if_pos ((hs a).mp ha)]
      exact ih s₁ s₂ hs
    · rw [dedupFirstAux, if_neg ha, dedupFirstAux,
        if_neg (fun hc => ha ((hs a).mpr hc))]
      congr 1
      refine ih (a :: s₁) (a :: s₂) (fun x => ?_)
      simp [List.mem_cons, hs x]

theorem collectAllOwners_eq_dedup (ringL : List (Nat × String)) (ps : List Nat) :
    (∀ v ∈ valuesAt ringL ps, v ≠ "") →
    ∀ acc : List String,
      collectAllOwners ringL ps acc =
        acc ++ dedupFirstAux acc (valuesAt ringL ps) := by
  induction ps with
  | nil => intro _ acc; simp [collectAllOwners, valuesAt, dedupFirstAux]
  | cons p ps ih =>
    intro hvals acc
    rw [collectAllOwners_step]
    cases hlk : lookupPos ringL p with
    | none =>
      have hv' : valuesAt ringL (p :: ps) = valuesAt ringL ps := by
        simp [valuesAt, List.filterMap_cons, hlk]
      rw [hv'] at hvals ⊢
      exact ih hvals acc
    | some v =>
      have hv' : valuesAt ringL (p :: ps) = v :: valuesAt ringL ps := by
        simp [valuesAt, List.filterMap_cons, hlk]
      have hvne : v ≠ "" := by
        apply hvals
        rw [hv']
        exact List.mem_cons_self v _
      have hvals' : ∀ w ∈ valuesAt ringL ps, w ≠ "" := by
        intro w hw
        apply hvals
        rw [hv']
        exact List.mem_cons_of_mem _ hw
      rw [hv']
      show collectAllOwners ringL ps
          (if v ≠ "" ∧ v ∉ acc then acc ++ [v] else acc) =
        acc ++ dedupFirstAux acc (v :: valuesAt ringL ps)
      by_cases hmem : v ∈ acc
      · rw [if_neg (by simp [hmem]), dedupFirstAux, if_pos hmem]
        exact ih hvals' acc
      · rw [if_pos ⟨hvne, hmem⟩, dedupFirstAux, if_neg hmem]
        rw [ih hvals' (acc ++ [v])]
        rw [dedupFirstAux_seen_congr (acc ++ [v]) (v :: acc)
          (fun x => by simp [List.mem_append, List.mem_cons, or_comm])
          (valuesAt ringL ps)]
        simp

theorem lookupPos_some_mem (l : List (Nat × String)) (k : Nat) (v : String)
    (h : lookupPos l k = some v) : (k, v) ∈ l := by
  unfold lookupPos at h
  cases hf : l.find? (fun e => e.1 = k) with
  | none =>
    rw [hf] at h
    simp at h
  | some e =>
    rw [hf] at h
    have hek : e.1 = k := by simpa using List.find?_some hf
    have hmem : e ∈ l := List.mem_of_find?_eq_some hf
    have hv : e.2 = v := by
      have h' : some e.2 = some v := by simpa using h
      exact Option.some.inj h'
    have hkv : (k, v) = e := by
      obtain ⟨p, w⟩ := e
      have hpk : p = k := hek
      have hwv : w = v := hv
      rw [hpk, hwv]
    rw [hkv]
    exact hmem

theorem lookupPos_some_of_mem_keys (l : List (Nat × String)) (k : Nat)
    (h : k ∈ l.map Prod.fst) : ∃ v, lookupPos l k = some v := by
  obtain ⟨e, he, hek⟩ := List.mem_map.mp h
  cases hf : l.find? (fun e => e.1 = k) with
  | none =>
    have := List.find?_eq_none.mp hf e he
    simp [hek] at this
  | some e' => exact ⟨e'.2, by simp [lookupPos, hf]⟩

theorem valuesAt_map_fst (l : List (Nat × String)) :
    ∀ r : List (Nat × String), (∀ e ∈ l, lookupPos r e.1 = some e.2) →
      valuesAt r (l.map Prod.fst) = l.map Prod.snd := by
  induction l with
  | nil => intro r _; rfl
  | cons e l ih =>
    intro r hr
    have he : lookupPos r e.1 = some e.2 := hr e (List.mem_cons_self e l)
    simp only [List.map_cons, valuesAt, List.filterMap_cons, he]
    congr 1
    exact ih r (fun a ha => hr a (List.mem_cons_of_mem _ ha))

theorem lookupPos_cons_ne (k : Nat) (v : String) (l : List (Nat × String))
    (k' : Nat) (hk : k' ≠ k) :
    lookupPos ((k, v) :: l) k' = lookupPos l k' := by
  unfold lookupPos
  rw [List.find?_cons]
  have hne : ¬ ((k, v).1 = k') := fun h => hk (Eq.symm h)
  simp [hne]

theorem lookupPos_cons_self (k : Nat) (v : String) (l : List (Nat × String)) :
    lookupPos ((k, v) :: l) k = some v := by
  unfold lookupPos
  rw [List.find?_cons]
  simp

theorem valuesAt_self (l : List (Nat × String)) (hk : (l.map Prod.fst).Nodup) :
    valuesAt l (l.map Prod.fst) = l.map Prod.snd := by
  apply valuesAt_map_fst
  induction l with
  | nil => intro e he; exact absurd he (List.not_mem_nil e)
  | cons a l ih =>
    intro e he
    obtain ⟨p, v⟩ := a
    rcases List.mem_cons.mp he with rfl | hmem
    · exact lookupPos_cons_self p v l
    · have hne : e.1 ≠ p := by
        intro hep
        simp only [List.map_cons, List.nodup_cons] at hk
        apply hk.1
        rw [← hep]
        exact List.mem_map_of_mem Prod.fst hmem
      rw [lookupPos_cons_ne p v l e.1 hne]
      have hk' : (l.map Prod.fst).Nodup := by
        simp only [List.map_cons, List.nodup_cons] at hk
        exact hk.2
      exact ih hk' e hmem

theorem collectOwners_head (ringL : List (Nat × String)) (count : Int)
    (hcnt : 0 < count) (r0 : Nat) (rrest : List Nat) (v0 : String)
    (hl : lookupPos ringL r0 = some v0) (hv0 : v0 ≠ "") :
    ∃ t, collectOwners ringL count (r0 :: rrest) [] = v0 :: t := by
  rw [collectOwners, if_pos (by simpa using hcnt)]
  simp only [hl]
  rw [if_pos ⟨hv0, List.not_mem_nil v0⟩]
  obtain ⟨t, ht⟩ := collectOwners_extends ringL count rrest ([] ++ [v0])
  refine ⟨t, ?_⟩
  rw [ht]
  simp

theorem collect_main (ringL : List (Nat × String)) (keys : List Nat)
    (count : Int) (p : Nat) (hcnt : 0 < count)
    (hkeysnd : (ringL.map Prod.fst).Nodup)
    (hvals : ∀ e ∈ ringL, e.2 ≠ "")
    (hkeq : List.Perm keys (ringL.map Prod.fst))
    (hklen : 0 < keys.length) :
    ∃ res, getNLoop ringL keys count keys.length (binarySearch keys p) [] = res ∧
      res.length = min count.toNat (dedupFirst (ringL.map Prod.snd)).length ∧
      res.Nodup ∧
      ∃ v0, res.head? = some v0 ∧
        (keys.get? (if keys.length ≤ binarySearch keys p then 0
            else binarySearch keys p)).bind (lookupPos ringL) = some v0 := by
  set idx0 := binarySearch keys p with hidx0def
  have hidx0le : idx0 ≤ keys.length := List.findIdx_le_length _
  set rot := keys.drop idx0 ++ keys.take idx0 with hrotdef
  have hpermk : List.Perm rot keys := by
    have h2 := @List.perm_append_comm Nat (keys.drop idx0) (keys.take idx0)
    rw [List.take_append_drop] at h2
    exact h2
  have hPerm : List.Perm rot (ringL.map Prod.fst) := hpermk.trans hkeq
  have hloop : getNLoop ringL keys count keys.length idx0 [] =
      collectOwners ringL count rot [] := by
    rw [getNLoop_eq_collect ringL keys count keys.length idx0 [] hidx0le
      (le_refl _)]
    congr 1
    rw [hrotdef]
    rw [List.take_append_eq_append_take]
    rw [List.take_of_length_le (by rw [List.length_drop]; omega)]
    rw [List.length_drop]
    have harg : keys.length - (keys.length - idx0) = idx0 := by omega
    rw [harg]
  have hvrot : ∀ v ∈ valuesAt ringL rot, v ≠ "" := by
    intro v hvmem
    obtain ⟨q, _, hlkq⟩ := List.mem_filterMap.mp hvmem
    exact hvals (q, v) (lookupPos_some_mem ringL q v hlkq)
  have hpermv : List.Perm (valuesAt ringL rot) (ringL.map Prod.snd) := by
    have hp : List.Perm (valuesAt ringL rot)
        (valuesAt ringL (ringL.map Prod.fst)) := hPerm.filterMap _
    rw [valuesAt_self ringL hkeysnd] at hp
    exact hp
  have hcard : (dedupFirstAux [] (valuesAt ringL rot)).length =
      (dedupFirst (ringL.map Prod.snd)).length := by
    show (dedupFirst (valuesAt ringL rot)).length = _
    rw [length_dedupFirst_eq_card, length_dedupFirst_eq_card]
    exact congrArg Finset.card (List.toFinset_eq_of_perm _ _ hpermv)
  refine ⟨collectOwners ringL count rot [], hloop, ?_,
    collectOwners_nodup ringL count rot [] List.nodup_nil, ?_⟩
  · rw [collectOwners_eq_take, collectAllOwners_eq_dedup ringL rot hvrot []]
    simp only [List.nil_append, List.length_nil, Nat.zero_max, List.length_take]
    rw [hcard]
  · have hr0head : rot.head? =
        keys.get? (if keys.length ≤ idx0 then 0 else idx0) := by
      by_cases hge : keys.length ≤ idx0
      · have heq : idx0 = keys.length := le_antisymm hidx0le hge
        rw [if_pos hge, hrotdef, heq, List.drop_length, List.nil_append,
          List.take_length, List.get?_zero]
      · have hlt : idx0 < keys.length := Nat.lt_of_not_le hge
        rw [if_neg hge, hrotdef, List.drop_eq_get_cons hlt, List.cons_append,
          List.get?_eq_get hlt]
        rfl
    have hlt' : (if keys.length ≤ idx0 then 0 else idx0) < keys.length := by
      by_cases hge : keys.length ≤ idx0
      · rw [if_pos hge]; omega
      · rw [if_neg hge]; omega
    have hr0 : keys.get? (if keys.length ≤ idx0 then 0 else idx0) =
        some (keys.get ⟨_, hlt'⟩) := List.get?_eq_get hlt'
    set r0 := keys.get ⟨if keys.length ≤ idx0 then 0 else idx0, hlt'⟩ with hr0def
    have hr0mem : r0 ∈ keys := List.get_mem keys _ _
    have hr0fst : r0 ∈ ringL.map Prod.fst := hkeq.mem_iff.mp hr0mem
    obtain ⟨v0, hv0⟩ := lookupPos_some_of_mem_keys ringL r0 hr0fst
    have hv0ne : v0 ≠ "" := hvals (r0, v0) (lookupPos_some_mem ringL r0 v0 hv0)
    cases hrotc : rot with
    | nil =>
      rw [hrotc] at hr0head
      rw [hr0] at hr0head
      simp at hr0head
    | cons a t =>
      have ha : a = r0 := by
        rw [hrotc] at hr0head
        rw [hr0] at hr0head
        simpa using hr0head
      subst ha
      obtain ⟨t', ht'⟩ := collectOwners_head ringL count hcnt r0 t v0 hv0 hv0ne
      refine ⟨v0, ?_, ?_⟩
      · rw [ht']
        rfl
      · rw [hr0]
        exact hv0

/-- C4: for every non-empty ring (in a state satisfying the reachable-state
invariants: sorted index rebuilt from the map keys, distinct map keys, and
non-empty owner identifiers), every valid key and every `count > 0`, `getN`
returns a sequence whose length is `min(count, size)` where `size` is the
number of distinct physical nodes, whose elements are pairwise distinct, and
whose first element is the owner returned by `get`. -/
theorem getN_invariants (h : String → Nat) (st : HashOrbit) (key : String)
    (count : Int) (hv : validateIdentifier key = Except.ok ())
    (hne : st.ring ≠ []) (hcnt : 0 < count)
    (hinv : st.sortedKeys = sortAsc (st.ring.map Prod.fst))
    (hkeys : (st.ring.map Prod.fst).Nodup)
    (hvals : ∀ e ∈ st.ring, e.2 ≠ "") :
    ∃ res, getN h st key count = Except.ok res ∧
      res.length = min count.toNat (size st) ∧
      res.Nodup ∧ get h st key = Except.ok res.head? := by
  have hklen : 0 < st.sortedKeys.length := by
    rw [hinv, sortAsc_length, List.length_map]
    exact List.length_pos.mpr hne
  have hkeq : List.Perm st.sortedKeys (st.ring.map Prod.fst) := by
    rw [hinv]
    exact sortAsc_perm _
  obtain ⟨res, hres, hlen, hnd, v0, hhead, hbind⟩ :=
    collect_main st.ring st.sortedKeys count (h key) hcnt hkeys hvals hkeq hklen
  refine ⟨res, ?_, ?_, hnd, ?_⟩
  · unfold getN
    rw [hv, exceptBind_ok,
      if_neg (by push_neg; exact ⟨hne, by omega⟩)]
    rw [hres]
    rfl
  · exact hlen
  · unfold get
    rw [hv, exceptBind_ok, if_neg hne]
    show Except.ok ((st.sortedKeys.get?
        (if st.sortedKeys.length ≤ binarySearch st.sortedKeys (h key) then 0
          else binarySearch st.sortedKeys (h key))).bind (lookupPos st.ring)) =
      Except.ok res.head?
    rw [hhead, hbind]

theorem getN_invariants_witness :
    validateIdentifier "hi" = Except.ok () ∧
    ((⟨[(3, "A"), (7, "Bob")], [3, 7], 1⟩ : HashOrbit).ring ≠ []) ∧
    ((0 : Int) < 5) ∧
    (∃ res, getN hLen ⟨[(3, "A"), (7, "Bob")], [3, 7], 1⟩ "hi" 5 = Except.ok res ∧
      res.length = min (5 : Int).toNat (size ⟨[(3, "A"), (7, "Bob")], [3, 7], 1⟩) ∧
      res.Nodup ∧
      get hLen ⟨[(3, "A"), (7, "Bob")], [3, 7], 1⟩ "hi" = Except.ok res.head?) :=
  ⟨rfl, by decide, by decide,
    getN_invariants hLen ⟨[(3, "A"), (7, "Bob")], [3, 7], 1⟩ "hi" 5 rfl
      (by decide) (by decide) rfl (by decide) (by decide)⟩

theorem containsKey_false_iff (l : List (Nat × String)) (k : Nat) :
    containsKey l k = false ↔ k ∉ l.map Prod.fst := by
  unfold containsKey
  rw [← Bool.not_eq_true, List.any_eq_true]
  constructor
  · intro hno hk
    obtain ⟨e, he, hek⟩ := List.mem_map.mp hk
    exact hno ⟨e, he, by simp [hek]⟩
  · rintro hk ⟨e, he, hek⟩
    simp only [decide_eq_true_eq] at hek
    exact hk (List.mem_map.mpr ⟨e, he, hek⟩)

theorem containsKey_false_all (l : List (Nat × String)) (k : Nat)
    (h : containsKey l k = false) : ∀ e ∈ l, ¬ e.1 = k := by
  intro e he hek
  have := (containsKey_false_iff l k).mp h
  exact this (List.mem_map.mpr ⟨e, he, hek⟩)

theorem lookupPos_none_iff (l : List (Nat × String)) (k : Nat) :
    lookupPos l k = none ↔ k ∉ l.map Prod.fst := by
  constructor
  · intro hn hk
    obtain ⟨v, hv⟩ := lookupPos_some_of_mem_keys l k hk
    rw [hv] at hn
    exact Option.noConfusion hn
  · intro hk
    unfold lookupPos
    cases hf : l.find? (fun e => e.1 = k) with
    | none => rfl
    | some e =>
      have hek : e.1 = k := by simpa using List.find?_some hf
      have hmem : e ∈ l := List.mem_of_find?_eq_some hf
      exact absurd (List.mem_map.mpr ⟨e, hmem, hek⟩) hk

theorem lookupPos_of_contains_allVal (l : List (Nat × String)) (k : Nat)
    (v : String) (hc : containsKey l k = true)
    (hall : ∀ e ∈ l, e.1 = k → e.2 = v) : lookupPos l k = some v := by
  unfold containsKey at hc
  obtain ⟨e0, he0, hek0⟩ := List.any_eq_true.mp hc
  unfold lookupPos
  cases hf : l.find? (fun e => e.1 = k) with
  | none =>
    have := List.find?_eq_none.mp hf e0 he0
    exact absurd hek0 this
  | some e =>
    have hek : e.1 = k := by simpa using List.find?_some hf
    have hmem : e ∈ l := List.mem_of_find?_eq_some hf
    simp [hall e hmem hek]

theorem setEntry_append_left (l m : List (Nat × String)) (p : Nat) (v : String)
    (hl : containsKey l p = false) :
    setEntry (l ++ m) p v = l ++ setEntry m p v := by
  have hany : (l ++ m).any (fun e => e.1 = p) = m.any (fun e => e.1 = p) := by
    rw [List.any_append]
    unfold containsKey at hl
    rw [hl, Bool.false_or]
  unfold setEntry
  rw [hany]
  by_cases hm : m.any (fun e => e.1 = p) = true
  · rw [if_pos hm, if_pos hm, List.map_append]
    congr 1
    have : ∀ e ∈ l, (if e.1 = p then (p, v) else e) = e := by
      intro e he
      rw [if_neg (containsKey_false_all l p hl e he)]
    calc l.map (fun e => if e.1 = p then (p, v) else e)
        = l.map id := List.map_congr_left this
      _ = l := List.map_id l
  · rw [if_neg hm, if_neg hm, List.append_assoc]

theorem foldl_set_append_fresh (v : String) (ps : List Nat)
    (l : List (Nat × String)) (hfresh : ∀ p ∈ ps, containsKey l p = false) :
    ∀ m : List (Nat × String),
      ps.foldl (fun acc p => setEntry acc p v) (l ++ m) =
        l ++ ps.foldl (fun acc p => setEntry acc p v) m := by
  induction ps with
  | nil => intro m; rfl
  | cons p ps ih =>
    intro m
    simp only [List.foldl_cons]
    rw [setEntry_append_left l m p v (hfresh p (List.mem_cons_self p ps))]
    exact ih (fun q hq => hfresh q (List.mem_cons_of_mem _ hq)) (setEntry m p v)

theorem setEntry_mem_cases (l : List (Nat × String)) (k : Nat) (v : String)
    (e : Nat × String) (he : e ∈ setEntry l k v) : e ∈ l ∨ e = (k, v) := by
  unfold setEntry at he
  split at he
  · obtain ⟨a, ha, rfl⟩ := List.mem_map.mp he
    by_cases hak : a.1 = k
    · right; rw [if_pos hak]
    · left; rw [if_neg hak]; exact ha
  · rcases List.mem_append.mp he with hl | hr
    · exact Or.inl hl
    · right; simpa using hr

theorem foldl_set_mem_cases (v : String) (ps : List Nat) :
    ∀ (l : List (Nat × String)) (e : Nat × String),
      e ∈ ps.foldl (fun acc p => setEntry acc p v) l →
      e ∈ l ∨ (e.1 ∈ ps ∧ e.2 = v) := by
  induction ps with
  | nil => intro l e he; exact Or.inl he
  | cons p ps ih =>
    intro l e he
    simp only [List.foldl_cons] at he
    rcases ih (setEntry l p v) e he with hin | ⟨h1, h2⟩
    · rcases setEntry_mem_cases l p v e hin with hl | hkv
      · exact Or.inl hl
      · right
        rw [hkv]
        exact ⟨List.mem_cons_self p ps, rfl⟩
    · exact Or.inr ⟨List.mem_cons_of_mem _ h1, h2⟩

theorem setEntry_map_fst_contains (l : List (Nat × String)) (k : Nat)
    (v : String) (hc : containsKey l k = true) :
    (setEntry l k v).map Prod.fst = l.map Prod.fst := by
  unfold containsKey at hc
  unfold setEntry
  rw [if_pos hc, List.map_map]
  apply List.map_congr_left
  intro e _
  by_cases hek : e.1 = k
  · simp [hek]
  · simp [hek]

theorem setEntry_map_fst_fresh (l : List (Nat × String)) (k : Nat)
    (v : String) (hc : containsKey l k = false) :
    (setEntry l k v).map Prod.fst = l.map Prod.fst ++ [k] := by
  unfold containsKey at hc
  unfold setEntry
  rw [if_neg (by rw [hc]; exact Bool.false_ne_true), List.map_append]
  rfl

theorem setEntry_nodup_keys (l : List (Nat × String)) (k : Nat) (v : String)
    (hn : (l.map Prod.fst).Nodup) : ((setEntry l k v).map Prod.fst).Nodup := by
  cases hc : containsKey l k with
  | true => rw [setEntry_map_fst_contains l k v hc]; exact hn
  | false =>
    rw [setEntry_map_fst_fresh l k v hc]
    rw [List.nodup_append]
    refine ⟨hn, List.nodup_singleton k, ?_⟩
    intro a ha hk
    simp only [List.mem_singleton] at hk
    subst hk
    exact (containsKey_false_iff l a).mp hc ha

theorem foldl_set_nodup_keys (v : String) (ps : List Nat) :
    ∀ l : List (Nat × String), (l.map Prod.fst).Nodup →
      ((ps.foldl (fun acc p => setEntry acc p v) l).map Prod.fst).Nodup := by
  induction ps with
  | nil => intro l hn; exact hn
  | cons p ps ih =>
    intro l hn
    simp only [List.foldl_cons]
    exact ih (setEntry l p v) (setEntry_nodup_keys l p v hn)

theorem lookupPos_append (l t : List (Nat × String)) (k : Nat) :
    lookupPos (l ++ t) k =
      (match lookupPos l k with
        | some v => some v
        | none => lookupPos t k) := by
  unfold lookupPos
  rw [List.find?_append]
  cases hf : l.find? (fun e => e.1 = k) <;> simp [hf, Option.or]

theorem sortAsc_eq_of_perm (l₁ l₂ : List Nat) (h : List.Perm l₁ l₂) :
    sortAsc l₁ = sortAsc l₂ :=
  List.eq_of_perm_of_sorted
    ((sortAsc_perm l₁).trans (h.trans (sortAsc_perm l₂).symm))
    (sortAsc_sorted l₁) (sortAsc_sorted l₂)

theorem get_congr_state (h : String → Nat) (st₁ st₂ : HashOrbit) (key : String)
    (hsk : st₁.sortedKeys = st₂.sortedKeys)
    (hlk : ∀ p, lookupPos st₁.ring p = lookupPos st₂.ring p)
    (hemp : st₁.ring = [] ↔ st₂.ring = []) :
    get h st₁ key = get h st₂ key := by
  unfold get
  by_cases h1 : st₁.ring = []
  · rw [if_pos h1, if_pos (hemp.mp h1)]
  · rw [if_neg h1, if_neg (fun h2 => h1 (hemp.mpr h2)), hsk]
    have hbind : (st₂.sortedKeys.get?
        (if st₂.sortedKeys.length ≤ binarySearch st₂.sortedKeys (h key) then 0
          else binarySearch st₂.sortedKeys (h key))).bind (lookupPos st₁.ring) =
        (st₂.sortedKeys.get?
        (if st₂.sortedKeys.length ≤ binarySearch st₂.sortedKeys (h key) then 0
          else binarySearch st₂.sortedKeys (h key))).bind (lookupPos st₂.ring) := by
      cases st₂.sortedKeys.get?
          (if st₂.sortedKeys.length ≤ binarySearch st₂.sortedKeys (h key) then 0
            else binarySearch st₂.sortedKeys (h key)) with
      | none => rfl
      | some q => exact hlk q
    show (validateIdentifier key >>= fun _ =>
        pure ((st₂.sortedKeys.get?
          (if st₂.sortedKeys.length ≤ binarySearch st₂.sortedKeys (h key) then 0
            else binarySearch st₂.sortedKeys (h key))).bind (lookupPos st₁.ring))) =
      (validateIdentifier key >>= fun _ =>
        pure ((st₂.sortedKeys.get?
          (if st₂.sortedKeys.length ≤ binarySearch st₂.sortedKeys (h key) then 0
            else binarySearch st₂.sortedKeys (h key))).bind (lookupPos st₂.ring)))
    rw [hbind]

theorem fromJSON_fold (h : String → Nat) (R : Nat) (NS : List String)
    (hINJ : ∀ n₁ ∈ NS, ∀ n₂ ∈ NS, ∀ i₁ < R, ∀ i₂ < R,
      h (vkey n₁ i₁) = h (vkey n₂ i₂) → n₁ = n₂) :
    ∀ (N₂ done : List String) (s : HashOrbit),
      s.replicas.toNat = R →
      s.sortedKeys = sortAsc (s.ring.map Prod.fst) →
      (∀ n ∈ N₂, validateIdentifier n = Except.ok ()) →
      (∀ n ∈ N₂, n ∉ done) → N₂.Nodup →
      done ⊆ NS → N₂ ⊆ NS →
      (∀ e ∈ s.ring, e.2 ∈ done ∧ ∃ i, i < R ∧ e.1 = h (vkey e.2 i)) →
      (∀ n ∈ done, ∀ i, i < R → lookupPos s.ring (h (vkey n i)) = some n) →
      ((s.ring.map Prod.fst).Nodup) →
      ∃ s', N₂.foldlM (fun acc n => add h acc n) s = Except.ok s' ∧
        s'.replicas = s.replicas ∧
        s'.sortedKeys = sortAsc (s'.ring.map Prod.fst) ∧
        (∀ e ∈ s'.ring, e.2 ∈ done ++ N₂ ∧ ∃ i, i < R ∧ e.1 = h (vkey e.2 i)) ∧
        (∀ n ∈ done ++ N₂, ∀ i, i < R →
          lookupPos s'.ring (h (vkey n i)) = some n) ∧
        ((s'.ring.map Prod.fst).Nodup) := by
  intro N₂
  induction N₂ with
  | nil =>
    intro done s hrep hsk _ _ _ _ _ hP1 hP2 hP3
    refine ⟨s, rfl, rfl, hsk, ?_, ?_, hP3⟩
    · simpa using hP1
    · simpa using hP2
  | cons m N₂ ih =>
    intro done s hrep hsk hval hfresh hnd hdsub hnsub hP1 hP2 hP3
    have hvm : validateIdentifier m = Except.ok () :=
      hval m (List.mem_cons_self m N₂)
    have hmNS : m ∈ NS := hnsub (List.mem_cons_self m N₂)
    set ps := positions h m s.replicas.toNat with hpsdef
    have hpsmem : ∀ p ∈ ps, ∃ i, i < R ∧ p = h (vkey m i) := by
      intro p hp
      rw [hpsdef] at hp
      unfold positions at hp
      obtain ⟨i, hi, rfl⟩ := List.mem_map.mp hp
      exact ⟨i, by rw [← hrep]; exact List.mem_range.mp hi, rfl⟩
    have hpsof : ∀ i, i < R → h (vkey m i) ∈ ps := by
      intro i hi
      rw [hpsdef]
      unfold positions
      exact List.mem_map_of_mem _ (List.mem_range.mpr (by omega))
    have hfreshp : ∀ p ∈ ps, containsKey s.ring p = false := by
      intro p hp
      cases hc : containsKey s.ring p with
      | false => rfl
      | true =>
        exfalso
        unfold containsKey at hc
        obtain ⟨e, he, hek⟩ := List.any_eq_true.mp hc
        simp only [decide_eq_true_eq] at hek
        obtain ⟨hedone, j, hj, hekey⟩ := hP1 e he
        obtain ⟨i, hi, hpi⟩ := hpsmem p hp
        have hem : e.2 = m :=
          hINJ e.2 (hdsub hedone) m hmNS j hj i hi (by rw [← hekey, hek, hpi])
        exact hfresh m (List.mem_cons_self m N₂) (hem ▸ hedone)
    set T := ps.foldl (fun acc p => setEntry acc p m) [] with hTdef
    have hsplit : ps.foldl (fun acc p => setEntry acc p m) s.ring =
        s.ring ++ T := by
      have hx := foldl_set_append_fresh m ps s.ring hfreshp []
      rw [List.append_nil] at hx
      exact hx
    have hTmem : ∀ e ∈ T, e.1 ∈ ps ∧ e.2 = m := by
      intro e he
      rw [hTdef] at he
      rcases foldl_set_mem_cases m ps [] e he with hnil | hok
      · exact absurd hnil (List.not_mem_nil e)
      · exact hok
    have hTlookup : ∀ p ∈ ps, lookupPos T p = some m := by
      intro p hp
      have hm := foldl_set_mem m ps [] p hp
      exact lookupPos_of_contains_allVal T p m hm.1 hm.2
    have hTnodup : (T.map Prod.fst).Nodup := by
      rw [hTdef]
      exact foldl_set_nodup_keys m ps [] (by simp)
    set s₁ : HashOrbit := ⟨s.ring ++ T, sortAsc ((s.ring ++ T).map Prod.fst),
      s.replicas⟩ with hs₁def
    have hadd : add h s m = Except.ok s₁ := by
      unfold add
      rw [hvm, exceptBind_ok]
      rw [← hpsdef, hsplit]
      rfl
    have hrep₁ : s₁.replicas.toNat = R := hrep
    have hsk₁ : s₁.sortedKeys = sortAsc (s₁.ring.map Prod.fst) := rfl
    have hP1₁ : ∀ e ∈ s₁.ring, e.2 ∈ done ++ [m] ∧
        ∃ i, i < R ∧ e.1 = h (vkey e.2 i) := by
      intro e he
      rcases List.mem_append.mp he with hl | hr
      · obtain ⟨hd, hi⟩ := hP1 e hl
        exact ⟨List.mem_append_left _ hd, hi⟩
      · obtain ⟨hp, hv⟩ := hTmem e hr
        obtain ⟨i, hi, hpe⟩ := hpsmem e.1 hp
        refine ⟨List.mem_append_right _ (by simp [hv]), i, hi, ?_⟩
        rw [hv]
        exact hpe
    have hP2₁ : ∀ n ∈ done ++ [m], ∀ i, i < R →
        lookupPos s₁.ring (h (vkey n i)) = some n := by
      intro n hn i hi
      show lookupPos (s.ring ++ T) (h (vkey n i)) = some n
      rw [lookupPos_append]
      rcases List.mem_append.mp hn with hd | hm'
      · rw [hP2 n hd i hi]
      · simp only [List.mem_singleton] at hm'
        subst hm'
        have hin : h (vkey n i) ∈ ps := hpsof i hi
        have hnone : lookupPos s.ring (h (vkey n i)) = none :=
          (lookupPos_none_iff _ _).mpr
            ((containsKey_false_iff _ _).mp (hfreshp _ hin))
        rw [hnone, hTlookup _ hin]
    have hP3₁ : (s₁.ring.map Prod.fst).Nodup := by
      show ((s.ring ++ T).map Prod.fst).Nodup
      rw [List.map_append, List.nodup_append]
      refine ⟨hP3, hTnodup, ?_⟩
      intro a ha haT
      obtain ⟨e, he, hea⟩ := List.mem_map.mp haT
      have hps : a ∈ ps := by
        rw [← hea]
        exact (hTmem e he).1
      exact (containsKey_false_iff s.ring a).mp (hfreshp a hps)
        (by rw [← hea] at ha; rw [hea] at ha; exact ha)
    have hfresh₁ : ∀ n ∈ N₂, n ∉ done ++ [m] := by
      intro n hn hmem
      rcases List.mem_append.mp hmem with hd | hm'
      · exact hfresh n (List.mem_cons_of_mem _ hn) hd
      · simp only [List.mem_singleton] at hm'
        subst hm'
        exact (List.nodup_cons.mp hnd).1 hn
    have hdsub₁ : done ++ [m] ⊆ NS := by
      intro a ha
      rcases List.mem_append.mp ha with hd | hm'
      · exact hdsub hd
      · simp only [List.mem_singleton] at hm'
        subst hm'
        exact hmNS
    obtain ⟨s', hfold, hrep', hsk', hP1', hP2', hP3'⟩ :=
      ih (done ++ [m]) s₁ hrep₁ hsk₁
        (fun n hn => hval n (List.mem_cons_of_mem _ hn)) hfresh₁
        (List.nodup_cons.mp hnd).2 hdsub₁
        (fun n hn => hnsub (List.mem_cons_of_mem _ hn)) hP1₁ hP2₁ hP3₁
    refine ⟨s', ?_, ?_, hsk', ?_, ?_, hP3'⟩
    · rw [List.foldlM_cons, hadd, exceptBind_ok]
      exact hfold
    · rw [hrep']
    · intro e he
      obtain ⟨hmem, hrest⟩ := hP1' e he
      refine ⟨?_, hrest⟩
      rw [List.append_assoc] at hmem
      simpa using hmem
    · intro n hn i hi
      apply hP2' n _ i hi
      rw [List.append_assoc]
      simpa using hn

/-- C3 counterexample: with a deliberate cross-node collision (`A:0` and `B:0`
both hash to position 0), the ring built by `add("A"); add("B")` owns position
0 by `"B"` (later write wins, updating the map entry in place), but the
restored ring replays the adds in the node list's first-occurrence order
`["B", "A"]`, so `"A"` overwrites position 0 and `get("k")` changes from
`"B"` to `"A"` after a `toJSON`/`fromJSON` round trip. -/
theorem roundtrip_cex :
    add cex3Hash (construct (some 2)) "A" =
      Except.ok ⟨[(0, "A"), (5, "A")], [0, 5], 2⟩ ∧
    add cex3Hash ⟨[(0, "A"), (5, "A")], [0, 5], 2⟩ "B" =
      Except.ok ⟨[(0, "B"), (5, "A"), (7, "B")], [0, 5, 7], 2⟩ ∧
    fromJSON cex3Hash (toJSON ⟨[(0, "B"), (5, "A"), (7, "B")], [0, 5, 7], 2⟩) =
      Except.ok ⟨[(0, "A"), (7, "B"), (5, "A")], [0, 5, 7], 2⟩ ∧
    get cex3Hash ⟨[(0, "B"), (5, "A"), (7, "B")], [0, 5, 7], 2⟩ "k" =
      Except.ok (some "B") ∧
    get cex3Hash ⟨[(0, "A"), (7, "B"), (5, "A")], [0, 5, 7], 2⟩ "k" =
      Except.ok (some "A") ∧
    get cex3Hash ⟨[(0, "A"), (7, "B"), (5, "A")], [0, 5, 7], 2⟩ "k" ≠
      get cex3Hash ⟨[(0, "B"), (5, "A"), (7, "B")], [0, 5, 7], 2⟩ "k" := by
  refine ⟨rfl, rfl, rfl, rfl, rfl, ?_⟩
  intro hc
  rw [show get cex3Hash ⟨[(0, "A"), (7, "B"), (5, "A")], [0, 5, 7], 2⟩ "k" =
      Except.ok (some "A") from rfl,
    show get cex3Hash ⟨[(0, "B"), (5, "A"), (7, "B")], [0, 5, 7], 2⟩ "k" =
      Except.ok (some "B") from rfl] at hc
  have hc1 : (some "A" : Option String) = some "B" := by injection hc
  have hc2 : "A" = "B" := by injection hc1
  exact absurd hc2 (by decide)

/-- C3 amended: restoring a ring from its snapshot yields identical lookups —
`fromJSON(toJSON(st)).get(k) = st.get(k)` for every key, including the empty
ring — provided no two virtual nodes of distinct physical nodes occupy the
same position (expressed below by requiring every virtual position of every
node to still be owned by that node), together with the reachable-state
invariants (distinct map keys, sorted index derived from the keys, validated
owners, and every entry being one of its owner's virtual positions).  Without
the collision-freedom hypothesis the round trip can change lookups (see the
counterexample). -/
theorem roundtrip_collision_free (h : String → Nat) (st : HashOrbit)
    (key : String)
    (hkeys : (st.ring.map Prod.fst).Nodup)
    (hinv : st.sortedKeys = sortAsc (st.ring.map Prod.fst))
    (hvalid : ∀ e ∈ st.ring, validateIdentifier e.2 = Except.ok ())
    (hown : ∀ e ∈ st.ring, ∃ i, i < st.replicas.toNat ∧ e.1 = h (vkey e.2 i))
    (hcomplete : ∀ n ∈ nodes st, ∀ i, i < st.replicas.toNat →
      lookupPos st.ring (h (vkey n i)) = some n) :
    ∃ st', fromJSON h (toJSON st) = Except.ok st' ∧
      get h st' key = get h st key := by
  have hNmem : ∀ n, n ∈ nodes st ↔ ∃ p, (p, n) ∈ st.ring := by
    intro n
    unfold nodes
    rw [mem_dedupFirst, List.mem_map]
    constructor
    · rintro ⟨⟨p, v⟩, hm, rfl⟩; exact ⟨p, hm⟩
    · rintro ⟨p, hm⟩; exact ⟨(p, n), hm, rfl⟩
  have hINJ : ∀ n₁ ∈ nodes st, ∀ n₂ ∈ nodes st,
      ∀ i₁ < st.replicas.toNat, ∀ i₂ < st.replicas.toNat,
      h (vkey n₁ i₁) = h (vkey n₂ i₂) → n₁ = n₂ := by
    intro n₁ h₁ n₂ h₂ i₁ hi₁ i₂ hi₂ heq
    have c₁ := hcomplete n₁ h₁ i₁ hi₁
    have c₂ := hcomplete n₂ h₂ i₂ hi₂
    rw [heq] at c₁
    rw [c₁] at c₂
    exact Option.some.inj c₂
  obtain ⟨s', hfold, _, hsk', hP1', hP2', hP3'⟩ :=
    fromJSON_fold h st.replicas.toNat (nodes st) hINJ (nodes st) []
      (construct (some st.replicas)) rfl rfl
      (fun n hn => by
        obtain ⟨p, hp⟩ := (hNmem n).mp hn
        exact hvalid (p, n) hp)
      (fun n _ => List.not_mem_nil n)
      (nodup_dedupFirst _)
      (List.nil_subset _)
      (List.Subset.refl _)
      (fun e he => absurd he (List.not_mem_nil e))
      (fun n hn => absurd hn (List.not_mem_nil n))
      List.nodup_nil
  have hfromJSON : fromJSON h (toJSON st) = Except.ok s' := hfold
  have hlk : ∀ p, lookupPos s'.ring p = lookupPos st.ring p := by
    intro p
    cases hs : lookupPos s'.ring p with
    | some v =>
      have hmem := lookupPos_some_mem s'.ring p v hs
      obtain ⟨hvN, i, hi, hpe⟩ := hP1' (p, v) hmem
      simp only [List.nil_append] at hvN
      have hc := hcomplete v hvN i hi
      rw [← hpe] at hc
      rw [hc]
    | none =>
      cases ht : lookupPos st.ring p with
      | none => rfl
      | some w =>
        exfalso
        have hmem := lookupPos_some_mem st.ring p w ht
        have hwN : w ∈ nodes st := (hNmem w).mpr ⟨p, hmem⟩
        obtain ⟨i, hi, hpe⟩ := hown (p, w) hmem
        have hgot := hP2' w (by simpa using hwN) i hi
        rw [← hpe] at hgot
        rw [hs] at hgot
        exact Option.noConfusion hgot
  have hkmem : ∀ p, p ∈ s'.ring.map Prod.fst ↔ p ∈ st.ring.map Prod.fst := by
    intro p
    constructor
    · intro hp
      obtain ⟨v, hv⟩ := lookupPos_some_of_mem_keys s'.ring p hp
      rw [hlk p] at hv
      exact List.mem_map.mpr ⟨(p, v), lookupPos_some_mem st.ring p v hv, rfl⟩
    · intro hp
      obtain ⟨v, hv⟩ := lookupPos_some_of_mem_keys st.ring p hp
      rw [← hlk p] at hv
      exact List.mem_map.mpr ⟨(p, v), lookupPos_some_mem s'.ring p v hv, rfl⟩
  have hperm : List.Perm (s'.ring.map Prod.fst) (st.ring.map Prod.fst) :=
    (List.perm_ext_iff_of_nodup hP3' hkeys).mpr hkmem
  have hsk_eq : s'.sortedKeys = st.sortedKeys := by
    rw [hsk', hinv]
    exact sortAsc_eq_of_perm _ _ hperm
  have hemp : s'.ring = [] ↔ st.ring = [] := by
    constructor
    · intro h0
      cases hx : st.ring with
      | nil => rfl
      | cons e rest =>
        exfalso
        have hm1 : e.1 ∈ st.ring.map Prod.fst := by
          rw [hx]
          exact List.mem_map_of_mem _ (List.mem_cons_self e rest)
        have hm2 := (hkmem e.1).mpr hm1
        rw [h0] at hm2
        simp at hm2
    · intro h0
      cases hx : s'.ring with
      | nil => rfl
      | cons e rest =>
        exfalso
        have hm1 : e.1 ∈ s'.ring.map Prod.fst := by
          rw [hx]
          exact List.mem_map_of_mem _ (List.mem_cons_self e rest)
        have hm2 := (hkmem e.1).mp hm1
        rw [h0] at hm2
        simp at hm2
  exact ⟨s', hfromJSON, get_congr_state h s' st key hsk_eq hlk hemp⟩

theorem roundtrip_collision_free_witness :
    (((⟨[(3, "A")], [3], 1⟩ : HashOrbit).ring.map Prod.fst).Nodup) ∧
    ((⟨[(3, "A")], [3], 1⟩ : HashOrbit).sortedKeys =
      sortAsc ((⟨[(3, "A")], [3], 1⟩ : HashOrbit).ring.map Prod.fst)) ∧
    (∀ e ∈ (⟨[(3, "A")], [3], 1⟩ : HashOrbit).ring,
      validateIdentifier e.2 = Except.ok ()) ∧
    (∀ e ∈ (⟨[(3, "A")], [3], 1⟩ : HashOrbit).ring,
      ∃ i, i < (⟨[(3, "A")], [3], 1⟩ : HashOrbit).replicas.toNat ∧
        e.1 = hLen (vkey e.2 i)) ∧
    (∀ n ∈ nodes ⟨[(3, "A")], [3], 1⟩,
      ∀ i, i < (⟨[(3, "A")], [3], 1⟩ : HashOrbit).replicas.toNat →
        lookupPos (⟨[(3, "A")], [3], 1⟩ : HashOrbit).ring
          (hLen (vkey n i)) = some n) ∧
    (∃ st', fromJSON hLen (toJSON ⟨[(3, "A")], [3], 1⟩) = Except.ok st' ∧
      get hLen st' "k" = get hLen ⟨[(3, "A")], [3], 1⟩ "k") :=
  ⟨by decide, rfl,
    by
      intro e he
      rw [List.mem_singleton] at he
      subst he
      rfl,
    by decide, by decide,
    roundtrip_collision_free hLen ⟨[(3, "A")], [3], 1⟩ "k" (by decide) rfl
      (by
        intro e he
        rw [List.mem_singleton] at he
        subst he
        rfl)
      (by decide) (by decide)⟩

end HashOrbit
